import Mathlib

/-!
Verification of `decode_cc.py` (IUMDPI/Extract-CC-Bytestream): a shallow
embedding of the line-21 closed-caption frame decoder and batch driver.

Modelling conventions:
* A sample row (one cropped scanline, already converted to luma) is a
  `List Nat`; the external image loading (PIL) is outside the embedded core,
  so `decodeFrame` takes the sample row directly and a frame is a row
  sampler `Nat → List Nat` (line index to sample row).
* Python float arithmetic on the small quantities involved
  (`width * 0.05`, `0.2 * width`, `runInLength / 0.251 * 0.038`,
  `bitWidth / 2`) is modelled exactly over `ℚ`; `int(...)` is Python's
  truncation toward zero, modelled by `Int.tdiv`, and `math.ceil` /
  `math.floor` are exact ceilings / floors.
* Python `None` falling out of a function (the `except` branch under
  `DEBUG`) is modelled by `Option`: `decodeFrame` returns `none` exactly
  when the Python function returns `None`, and `some bytes` otherwise.
* Python `x & 1` on a possibly negative int is `Int.emod x 2`, which is
  Lean's `%` on `Int`.
-/

namespace DecodeCC

/-- Lines 93-98: running maximum of the sample row (`maxluma` loop). -/
def maxlumaOf (row : List Nat) : Nat :=
  row.foldl (fun m c => if c > m then c else m) 0

/-- Lines 109-116: the in-place normalization loop.  `m` is `maxluma`,
the second argument is the running `lastVal`.  `v = floor(100 * s / m)`
is exact `Nat` division. -/
def normAux (m : Nat) : Nat → List Nat → List Nat
  | _, [] => []
  | lastVal, s :: rest =>
    let v := 100 * s / m
    let b := if 45 ≤ v ∧ v ≤ 55 then lastVal else if v > 50 then 1 else 0
    b :: normAux m b rest

/-- Lines 105-116: the Signal Normalizer, producing the binary row
(initial `lastVal` is 0). -/
def normalizeRow (row : List Nat) : List Nat :=
  normAux (maxlumaOf row) 0 row

/-- Lines 119-123: scan for the first `1`; the accumulator is the current
index.  If no `1` exists `startRunIn` keeps its initial value 0. -/
def findStartAux : Nat → List Nat → Nat
  | _, [] => 0
  | x, v :: rest => if v = 1 then x else findStartAux (x + 1) rest

/-- Lines 118-123: `startRunIn` = index of the first `1` in the binary
row, or 0 when there is none. -/
def findStart (values : List Nat) : Nat :=
  findStartAux 0 values

/-- Lines 137-146: transition-counting loop.  Arguments: remaining
suffix, current index `x`, `lastVal`, `count`.  Returns the index of the
13th value change, or the initial value 0 when fewer than 13 occur. -/
def findStopAux : List Nat → Nat → Nat → Nat → Nat
  | [], _, _, _ => 0
  | v :: rest, x, lastVal, count =>
    if v ≠ lastVal then
      if count + 1 = 13 then x
      else findStopAux rest (x + 1) v (count + 1)
    else findStopAux rest (x + 1) lastVal count

/-- Lines 134-146: `stopRunIn`, counting 13 transitions starting from
`startRunIn` with `lastVal = 1`. -/
def findStop (values : List Nat) (startRunIn : Nat) : Nat :=
  findStopAux (values.drop startRunIn) startRunIn 1 0

/-- Lines 176-177: the `while values[bitStart] == 0 and bitStart < width - 1`
loop, fuel-based (the loop advances at most `width` times). -/
def scanStartFuel : Nat → List Nat → Nat → Nat → Nat
  | 0, _, _, i => i
  | fuel + 1, values, width, i =>
    if values.getD i 0 = 0 ∧ i < width - 1 then scanStartFuel fuel values width (i + 1)
    else i

/-- Lines 175-177: first index at or after `i` holding a nonzero value
(stopping at `width - 1` regardless). -/
def scanStart (values : List Nat) (width i : Nat) : Nat :=
  scanStartFuel values.length values width i

/-- Lines 165-169: `dataSpan = runInLength / 0.251`,
`bitWidth = ceil(dataSpan * 0.038)`, i.e. `⌈runInLength * 38 / 251⌉`
as a `Nat` ceiling division. -/
def bitWidthOf (runInLength : Nat) : Nat :=
  (runInLength * 38 + 250) / 251

/-- Lines 185-206 (`getBit`): sample one bit slot.
`offset = int(bitStart + bit * bitWidth + bitWidth / 2)`; Python `int`
truncates toward zero, so with the value written over a common
denominator 2 this is `Int.tdiv` by 2.  Out of range (`offset >
len(values) - 1 or offset < 0`) returns the sentinel `-1`. -/
def getBit (values : List Nat) (bitStart bitWidth : Nat) (bit : Int) : Int :=
  let offset : Int :=
    Int.tdiv (2 * ((bitStart : Int) + bit * (bitWidth : Int)) + (bitWidth : Int)) 2
  if offset > (values.length : Int) - 1 ∨ offset < 0 then -1
  else ((values.getD offset.toNat 0 : Nat) : Int)

/-- Lines 222-229: the inner `for b in range(0, 7)` loop over the data
bits of one byte group, carried over the remaining list of bit numbers.
Accumulates `byte` and `parity`; a `-1` read raises `ValueError`
(modelled `none`). -/
def bitLoop (values : List Nat) (bitStart bitWidth base : Nat) :
    List Nat → Nat → Nat → Option (Nat × Nat)
  | [], byte, parity => some (byte, parity)
  | b :: bs, byte, parity =>
    let v := getBit values bitStart bitWidth ((base : Int) + (b : Int))
    if v = -1 then none
    else if v ≠ 0 then bitLoop values bitStart bitWidth base bs (byte + 2 ^ b) (parity + 1)
    else bitLoop values bitStart bitWidth base bs byte parity

/-- Lines 219-238: one byte group (`base` is 0 or 8): read bits
`base+0 .. base+6`, then the odd-parity test
`(getBit(base + 7) + parity) & 1 != 1` (note: the parity-bit read is
used arithmetically even when it is the `-1` sentinel, exactly as in the
source). -/
def assembleByte (values : List Nat) (bitStart bitWidth base : Nat) : Option Nat :=
  match bitLoop values bitStart bitWidth base [0, 1, 2, 3, 4, 5, 6] 0 0 with
  | none => none
  | some (byte, parity) =>
    if (getBit values bitStart bitWidth ((base : Int) + 7) + (parity : Int)) % 2 ≠ 1 then none
    else some byte

/-- Lines 209-239: the `try` block body: sanity check `(0, 0, 1)` on
bits -3, -2, -1, then the two byte groups in order.  `none` models a
raised `ValueError`. -/
def decodeTry (values : List Nat) (bitStart bitWidth : Nat) : Option (List Nat) :=
  if (getBit values bitStart bitWidth (-3), getBit values bitStart bitWidth (-2),
      getBit values bitStart bitWidth (-1)) ≠ ((0 : Int), (0 : Int), (1 : Int)) then none
  else
    match assembleByte values bitStart bitWidth 0 with
    | none => none
    | some b0 =>
      match assembleByte values bitStart bitWidth 8 with
      | none => none
      | some b1 => some [b0, b1]

/-- Lines 162-245: everything after the run-in band check: timing
calibration, bit sampling, byte assembly, and the `except ValueError`
handler.  Under `DEBUG` the handler body is `pass`, so the Python
function falls through and returns `None` (modelled `none`); otherwise
it returns the sentinel `(0, 0)`. -/
def decodeData (values : List Nat) (startRunIn stopRunIn width : Nat) (dbg : Bool) :
    Option (List Nat) :=
  let runInLength := stopRunIn - startRunIn
  let bitWidth := bitWidthOf runInLength
  let bitStart := scanStart values width stopRunIn + bitWidth
  match decodeTry values bitStart bitWidth with
  | some data => some data
  | none => if dbg then none else some [0, 0]

/-- Lines 81-245 (`decodeFrame`), with the sample row already extracted:
blank-line check, normalization, run-in location and validation, then
`decodeData`.  The float guards `startRunIn > width * 0.05`,
`stopRunIn < 0.2 * width`, `stopRunIn > 0.3 * width` are exact rational
comparisons; they are written here scaled into `Nat` (multiply through
by 100 resp. 10), an exact transformation recorded by
`startGuard_iff`, `bandLow_iff` and `bandHigh_iff` below. -/
def decodeFrame (row : List Nat) (dbg : Bool) : Option (List Nat) :=
  let width := row.length
  let maxluma := maxlumaOf row
  if maxluma < 32 then some [0, 0]
  else
    let values := normalizeRow row
    let startRunIn := findStart values
    if 100 * startRunIn > width * 5 then some [0, 0]
    else
      let stopRunIn := findStop values startRunIn
      if stopRunIn = 0 then some [0, 0]
      else if 10 * stopRunIn < 2 * width ∨ 10 * stopRunIn > 3 * width then
        some [0, 0]
      else decodeData values startRunIn stopRunIn width dbg

/-- Lines 260-263: the result-concatenation loop of `getByteStream`.
A `None` element makes the Python loop raise (`NoneType` is not
iterable), which escapes the function: modelled by `none` for the whole
stream. -/
def flattenResults : List (Option (List Nat)) → Option (List Nat)
  | [] => some []
  | none :: _ => none
  | some r :: rest =>
    match flattenResults rest with
    | none => none
    | some acc => some (r ++ acc)

/-- Lines 248-263 (`getByteStream`): `pool.starmap(decodeFrame, ...)` is
an ordered parallel map — results arrive in argument order regardless of
worker completion order — so it is modelled as `List.map`; the pool size
does not enter the result.  A frame is modelled as its row sampler
`Nat → List Nat`. -/
def getByteStream (images : List (Nat → List Nat)) (line : Nat) (dbg : Bool) :
    Option (List Nat) :=
  flattenResults (images.map fun img => decodeFrame (img line) dbg)

/-! ### Specification-side definitions

The repository contains no encoder; the following family of well-formed
encoded rows realizes the spec's description of a valid frame (run-in of
7 cycles / 13 transitions ending between 20% and 30% of the width, dead
space, start bit, two 7-bit bytes LSB-first each followed by an odd
parity bit), at width 60 with bit width 2. -/

/-- Bit `i` of `n`, LSB first. -/
def bitOf (n i : Nat) : Nat := n / 2 ^ i % 2

/-- Number of set bits among the 7 data bits of `n`. -/
def onesCount (n : Nat) : Nat :=
  bitOf n 0 + bitOf n 1 + bitOf n 2 + bitOf n 3 + bitOf n 4 + bitOf n 5 + bitOf n 6

/-- Modelled from the spec: the odd-parity bit for a 7-bit value — the
set-bit count plus the parity bit must be odd. -/
def parityBitOf (n : Nat) : Nat := (1 + onesCount n) % 2

/-- Modelled from the spec: raw samples of run-in (7 high half-cycles,
alternating, 13 transitions), dead space, and start bit, at width 60
with one sample per half-cycle and a 2-sample start bit. -/
def headerSamples : List Nat :=
  [255, 0, 255, 0, 255, 0, 255, 0, 255, 0, 255, 0, 255, 0, 0, 0, 0, 255, 255]

/-- Modelled from the spec: the 16 logical bit values of a frame — bits
0-6 of the first byte LSB-first, its odd-parity bit, bits 0-6 of the
second byte, its odd-parity bit. -/
def encodeBits (b1 b2 : Nat) : List Nat :=
  [bitOf b1 0, bitOf b1 1, bitOf b1 2, bitOf b1 3, bitOf b1 4, bitOf b1 5, bitOf b1 6,
   parityBitOf b1,
   bitOf b2 0, bitOf b2 1, bitOf b2 2, bitOf b2 3, bitOf b2 4, bitOf b2 5, bitOf b2 6,
   parityBitOf b2]

/-- Modelled from the spec: a well-formed encoded sample row carrying the
byte values `b1` and `b2`: header, then each logical bit held for one
bit width (2 samples) at full brightness, then padding to width 60. -/
def encodeFrame (b1 b2 : Nat) : List Nat :=
  headerSamples ++ (encodeBits b1 b2).flatMap (fun b => [255 * b, 255 * b]) ++
  List.replicate 9 0

/-- The binary value a full-scale sample row normalizes to: 255 ↦ 1,
0 ↦ 0. -/
def binOf (s : Nat) : Nat := if s = 255 then 1 else 0

/-- The normalized form of `headerSamples`. -/
def binHeader : List Nat :=
  [1, 0, 1, 0, 1, 0, 1, 0, 1, 0, 1, 0, 1, 0, 0, 0, 0, 1, 1]

/-- The binary row that `encodeFrame b1 b2` normalizes to: binary
header, each logical bit duplicated to its 2-sample slot, zero
padding. -/
def encBinRow (b1 b2 : Nat) : List Nat :=
  binHeader ++ (encodeBits b1 b2).flatMap (fun b => [b, b]) ++ List.replicate 9 0

/-- Truncation of a rational toward zero — the semantics of Python's
`int(...)` applied to a (here exactly represented) float. -/
def ratTrunc (q : ℚ) : Int := if 0 ≤ q then ⌊q⌋ else ⌈q⌉

/-- The Bit Sampler as the spec words it (§4.4): `offset =
floor(bitStart + bitIndex·bitWidth + bitWidth/2)`, sample there, and
return −1 whenever that offset falls outside `[0, width)`. -/
def getBitFloorSpec (values : List Nat) (bitStart bitWidth : Nat) (bit : Int) : Int :=
  let offset : Int := ⌊(bitStart : ℚ) + (bit : ℚ) * (bitWidth : ℚ) + (bitWidth : ℚ) / 2⌋
  if offset > (values.length : Int) - 1 ∨ offset < 0 then -1
  else ((values.getD offset.toNat 0 : Nat) : Int)

/-- The Bit Sampler with the spec's formula amended to Python's actual
`int` semantics: the midpoint expression truncated toward zero. -/
def getBitTruncSpec (values : List Nat) (bitStart bitWidth : Nat) (bit : Int) : Int :=
  let offset : Int := ratTrunc ((bitStart : ℚ) + (bit : ℚ) * (bitWidth : ℚ) + (bitWidth : ℚ) / 2)
  if offset > (values.length : Int) - 1 ∨ offset < 0 then -1
  else ((values.getD offset.toNat 0 : Nat) : Int)

/-- The Signal Normalizer classification step as the spec words it
(§4.1): `v = floor(100·sample/maxluma)`; the hysteresis band
`45 ≤ v ≤ 55` is checked first and carries the previous classified
value forward, otherwise `v > 50` gives 1 and `v < 45` gives 0. -/
def specClassify (m prev s : Nat) : Nat :=
  let v := 100 * s / m
  if 45 ≤ v ∧ v ≤ 55 then prev else if v > 50 then 1 else 0

/-- The Signal Normalizer as the spec words it: a left-to-right pass
carrying the previous classified value, starting from the initial
state 0. -/
def specNormalize (m : Nat) (row : List Nat) : List Nat :=
  (row.foldl (fun st s => (st.1 ++ [specClassify m st.2 s], specClassify m st.2 s))
    (([] : List Nat), 0)).1

/-- A width-50 row whose run-in is valid but which has no start bit at
all: the sanity check fails, exercising the `except ValueError` path. -/
def c1Row : List Nat :=
  [255, 0, 255, 0, 255, 0, 255, 0, 255, 0, 255, 0, 255] ++ List.replicate 37 0

/-- A width-50 row: valid run-in, dead space, start bit, first byte
`1` with correct parity, second-byte data bits all 0, and the row ends
inside bit 15's slot so the bit-15 (parity) sample offset is 50, out of
range. -/
def c2Row : List Nat :=
  [255, 0, 255, 0, 255, 0, 255, 0, 255, 0, 255, 0, 255] ++ List.replicate 4 0 ++
  [255, 255, 255, 255] ++ List.replicate 29 0

/-! ## Supporting lemmas -/

/-- The scaled guard of line 127 is exactly the rational comparison
`startRunIn > width * 0.05`. -/
theorem startGuard_iff (s w : Nat) : 100 * s > w * 5 ↔ (s : ℚ) > (w : ℚ) * (5 / 100) := by
  rw [gt_iff_lt, gt_iff_lt, ← Nat.cast_lt (α := ℚ)]
  push_cast
  constructor <;> intro h <;> linarith

/-- The scaled guard of line 159 (low side) is exactly
`stopRunIn < 0.2 * width`. -/
theorem bandLow_iff (t w : Nat) : 10 * t < 2 * w ↔ (t : ℚ) < 2 / 10 * (w : ℚ) := by
  rw [← Nat.cast_lt (α := ℚ)]
  push_cast
  constructor <;> intro h <;> linarith

/-- The scaled guard of line 159 (high side) is exactly
`stopRunIn > 0.3 * width`. -/
theorem bandHigh_iff (t w : Nat) : 10 * t > 3 * w ↔ (t : ℚ) > 3 / 10 * (w : ℚ) := by
  rw [gt_iff_lt, gt_iff_lt, ← Nat.cast_lt (α := ℚ)]
  push_cast
  constructor <;> intro h <;> linarith

/-- `normAux` preserves length. -/
theorem normAux_length (m : Nat) : ∀ (last : Nat) (l : List Nat),
    (normAux m last l).length = l.length := by
  intro last l
  induction l generalizing last with
  | nil => rfl
  | cons s rest ih => simp [normAux, ih]

/-- The spec-worded foldl pass agrees with the in-place loop, for any
accumulator and carried state. -/
theorem specNormalize_loop (m : Nat) : ∀ (l acc : List Nat) (last : Nat),
    (l.foldl (fun st s => (st.1 ++ [specClassify m st.2 s], specClassify m st.2 s))
      (acc, last)).1 = acc ++ normAux m last l := by
  intro l
  induction l with
  | nil => intro acc last; simp [normAux]
  | cons s rest ih =>
    intro acc last
    simp only [List.foldl_cons]
    rw [ih]
    simp [normAux, specClassify, List.append_assoc]

/-! ## Claims -/

/-- The blank-line guard: `maxluma < 32` short-circuits the decode. -/
theorem decodeFrame_blank (row : List Nat) (dbg : Bool) (h : maxlumaOf row < 32) :
    decodeFrame row dbg = some [0, 0] := by
  simp [decodeFrame, h]

/-- **C9.** For every sample row whose maximum brightness value is less
than 32, `decodeFrame` returns `(0, 0)`: the blank-line guard is the
first test, so no later stage runs. -/
theorem decodeFrame_blank_reject (row : List Nat) (dbg : Bool) (h : maxlumaOf row < 32) :
    decodeFrame row dbg = some [0, 0] :=
  decodeFrame_blank row dbg h

theorem decodeFrame_blank_reject_witness :
    maxlumaOf [16, 0, 7] < 32 ∧ decodeFrame [16, 0, 7] false = some [0, 0] :=
  ⟨by decide, decodeFrame_blank_reject [16, 0, 7] false (by decide)⟩

/-- **C1** (code bug.)  The claim — every rejection cause yields the
sentinel `(0, 0)` for every setting of the debug flag — fails: on
`c1Row` (valid run-in, missing start bit, so the sanity check raises
`ValueError`) the `except` handler under `DEBUG` executes `pass` and the
Python function falls through returning `None` (modelled `none`), while
with `DEBUG` off the same row yields the sentinel.  This contradicts the
function's own docstring ("Two bytes of decoded data, or a pair of
nulls"). -/
theorem decodeFrame_debug_swallows_rejection :
    decodeFrame c1Row true = none ∧ decodeFrame c1Row false = some [0, 0] := by
  constructor
  · set_option maxRecDepth 40000 in decide
  · set_option maxRecDepth 40000 in decide

/-- **C2** (code bug.)  The claim — any of the 8 bit reads of a byte
group returning the −1 sentinel rejects the frame — fails: on `c2Row`
the bit-15 (second parity bit) sample offset is 50, outside the width-50
row, so `getBit` returns −1; but the parity test `(getBit(base+7) +
parity) & 1` evaluates `(-1 + 0) & 1 = 1` and passes, and the frame is
accepted as `(1, 0)` instead of being rejected. -/
theorem decodeFrame_accepts_out_of_range_parity_bit :
    decodeFrame c2Row false = some [1, 0] ∧ getBit (normalizeRow c2Row) 19 2 15 = -1 := by
  constructor
  · set_option maxRecDepth 40000 in decide
  · set_option maxRecDepth 40000 in decide

/-- **C4** counterexample.  The Bit Sampler does not compute the floor
of the midpoint expression: Python `int(...)` truncates toward zero.
With `bitStart = 0`, `bitWidth = 1`, `bit = -1` the midpoint is `-0.5`:
the floor-spec offset is −1 (out of range, so −1 is returned), but the
code truncates to offset 0 and returns `values[0] = 1`. -/
theorem getBit_floor_counterexample :
    getBit [1] 0 1 (-1) = 1 ∧ getBitFloorSpec [1] 0 1 (-1) = -1 := by
  constructor
  · decide
  · norm_num [getBitFloorSpec]

/-- Truncation toward zero of a half-integer, in terms of `Int.tdiv`. -/
theorem tdiv_two_eq_ratTrunc (n : Int) : Int.tdiv n 2 = ratTrunc ((n : ℚ) / 2) := by
  have h2 : ((2 : ℕ) : ℚ) = (2 : ℚ) := by norm_num
  have h2i : (((2 : ℕ) : ℤ)) = (2 : ℤ) := by norm_num
  rcases le_or_lt 0 n with hn | hn
  · have hq : (0 : ℚ) ≤ (n : ℚ) / 2 := by
      apply div_nonneg _ (by norm_num)
      exact_mod_cast hn
    rw [ratTrunc, if_pos hq, ← h2, Rat.floor_intCast_div_natCast n 2, h2i,
      Int.tdiv_eq_ediv hn (by norm_num)]
  · have hq : ¬ (0 : ℚ) ≤ (n : ℚ) / 2 := by
      rw [not_le]
      apply div_neg_of_neg_of_pos _ (by norm_num)
      exact_mod_cast hn
    have hrw : (n : ℚ) / 2 = -((((-n : ℤ)) : ℚ) / 2) := by push_cast; ring
    have htd : Int.tdiv n 2 = -Int.tdiv (-n) 2 := by rw [← Int.neg_tdiv, neg_neg]
    rw [ratTrunc, if_neg hq, hrw, Int.ceil_neg, ← h2,
      Rat.floor_intCast_div_natCast (-n) 2, h2i, htd,
      Int.tdiv_eq_ediv (by omega) (by norm_num)]

/-- The slot-midpoint expression over a common denominator 2. -/
theorem midpoint_cast (bitStart bitWidth : Nat) (bit : Int) :
    (bitStart : ℚ) + (bit : ℚ) * (bitWidth : ℚ) + (bitWidth : ℚ) / 2
      = ((2 * ((bitStart : Int) + bit * (bitWidth : Int)) + (bitWidth : Int) : Int) : ℚ) / 2 := by
  push_cast
  ring

/-- **C4** amended.  For every signed bit index, the Bit Sampler
computes the slot-midpoint offset with Python `int` truncation toward
zero — not the floor — and returns the binary-row value there, or −1
when the offset falls outside `[0, width)`; the truncation agrees with
the spec's floor whenever `bitStart + bitIndex·bitWidth` is
nonnegative (in particular at every offset that is actually in
range when the midpoint is an integer or positive). -/
theorem getBit_trunc_spec (values : List Nat) (bitStart bitWidth : Nat) (bit : Int) :
    getBit values bitStart bitWidth bit = getBitTruncSpec values bitStart bitWidth bit ∧
    (0 ≤ (bitStart : Int) + bit * (bitWidth : Int) →
      getBit values bitStart bitWidth bit = getBitFloorSpec values bitStart bitWidth bit) := by
  have hoff : Int.tdiv (2 * ((bitStart : Int) + bit * (bitWidth : Int)) + (bitWidth : Int)) 2
      = ratTrunc ((bitStart : ℚ) + (bit : ℚ) * (bitWidth : ℚ) + (bitWidth : ℚ) / 2) := by
    rw [midpoint_cast, tdiv_two_eq_ratTrunc]
  constructor
  · simp only [getBit, getBitTruncSpec, hoff]
  · intro h
    have hnum : (0 : ℤ) ≤ 2 * ((bitStart : Int) + bit * (bitWidth : Int)) + (bitWidth : Int) := by
      have : (0 : ℤ) ≤ (bitWidth : Int) := Int.natCast_nonneg _
      omega
    have hq : (0 : ℚ) ≤ (bitStart : ℚ) + (bit : ℚ) * (bitWidth : ℚ) + (bitWidth : ℚ) / 2 := by
      rw [midpoint_cast]
      apply div_nonneg _ (by norm_num)
      exact_mod_cast hnum
    simp only [getBit, getBitFloorSpec, hoff, ratTrunc, if_pos hq]

theorem getBit_trunc_spec_witness :
    (getBit [0, 1] 1 2 0 = getBitTruncSpec [0, 1] 1 2 0 ∧
      getBit [0, 1] 1 2 0 = getBitFloorSpec [0, 1] 1 2 0) :=
  ⟨(getBit_trunc_spec [0, 1] 1 2 0).1, (getBit_trunc_spec [0, 1] 1 2 0).2 (by decide)⟩

/-- **C8.** For every sample row with `maxluma ≥ 32`, the normalizer is
exactly the spec's left-to-right classification pass —
`v = floor(100·sample/maxluma)`, hysteresis band `45 ≤ v ≤ 55` checked
first carrying the previous classified value (initial state 0),
otherwise 1 if `v > 50` and 0 otherwise — and the binary row has the
same length as the sample row. -/
theorem normalizeRow_spec (row : List Nat) (h : 32 ≤ maxlumaOf row) :
    normalizeRow row = specNormalize (maxlumaOf row) row ∧
    (normalizeRow row).length = row.length := by
  refine ⟨?_, normAux_length _ _ _⟩
  rw [normalizeRow, specNormalize, specNormalize_loop]
  simp

theorem normalizeRow_spec_witness :
    32 ≤ maxlumaOf [255, 100, 0] ∧
      (normalizeRow [255, 100, 0] = specNormalize (maxlumaOf [255, 100, 0]) [255, 100, 0] ∧
       (normalizeRow [255, 100, 0]).length = ([255, 100, 0] : List Nat).length) :=
  ⟨by decide, normalizeRow_spec [255, 100, 0] (by decide)⟩

/-- `findStartAux` finds the first index satisfying `= 1`, starting the
count at `x`. -/
theorem findStartAux_eq_some : ∀ (l : List Nat) (x j : Nat),
    l.findIdx? (fun v => v == 1) x = some j → findStartAux x l = j := by
  intro l
  induction l with
  | nil => intro x j h; simp at h
  | cons a rest ih =>
    intro x j h
    rw [List.findIdx?_cons] at h
    by_cases ha : a = 1
    · subst ha
      rw [if_pos (show ((1 : Nat) == 1) = true from rfl)] at h
      simp only [findStartAux, if_pos rfl]
      exact Option.some.inj h
    · rw [if_neg (by simp [ha])] at h
      simp only [findStartAux, if_neg ha]
      exact ih (x + 1) j h

/-- When no `1` occurs, `findStartAux` returns its initial value 0. -/
theorem findStartAux_eq_none : ∀ (l : List Nat) (x : Nat),
    l.findIdx? (fun v => v == 1) x = none → findStartAux x l = 0 := by
  intro l
  induction l with
  | nil => intro x _; rfl
  | cons a rest ih =>
    intro x h
    rw [List.findIdx?_cons] at h
    by_cases ha : a = 1
    · subst ha
      rw [if_pos (show ((1 : Nat) == 1) = true from rfl)] at h
      simp at h
    · rw [if_neg (by simp [ha])] at h
      simp only [findStartAux, if_neg ha]
      exact ih (x + 1) h

/-- Entries of the binary row are 0 or 1 (given a carried state ≤ 1). -/
theorem normAux_le_one (m : Nat) : ∀ (last : Nat) (l : List Nat), last ≤ 1 →
    ∀ x ∈ normAux m last l, x ≤ 1 := by
  intro last l
  induction l generalizing last with
  | nil => intro _ x hx; simp [normAux] at hx
  | cons s rest ih =>
    intro hlast x hx
    simp only [normAux, List.mem_cons] at hx
    have hb : (if 45 ≤ 100 * s / m ∧ 100 * s / m ≤ 55 then last
        else if 100 * s / m > 50 then 1 else 0) ≤ 1 := by
      split
      · exact hlast
      · split <;> omega
    rcases hx with hx | hx
    · omega
    · exact ih _ hb x hx

/-- The branch structure of `decodeFrame` past the blank-line guard. -/
theorem decodeFrame_eq (row : List Nat) (dbg : Bool) (hm : ¬ maxlumaOf row < 32) :
    decodeFrame row dbg =
      (if 100 * findStart (normalizeRow row) > row.length * 5 then some [0, 0]
       else if findStop (normalizeRow row) (findStart (normalizeRow row)) = 0 then some [0, 0]
       else if 10 * findStop (normalizeRow row) (findStart (normalizeRow row)) < 2 * row.length ∨
           10 * findStop (normalizeRow row) (findStart (normalizeRow row)) > 3 * row.length then
         some [0, 0]
       else decodeData (normalizeRow row) (findStart (normalizeRow row))
         (findStop (normalizeRow row) (findStart (normalizeRow row))) row.length dbg) := by
  simp only [decodeFrame, if_neg hm]

/-- `findStopAux` with `lastVal = 0` finds no transition in an all-zero
suffix. -/
theorem findStopAux_all_zero : ∀ (l : List Nat) (x c : Nat),
    (∀ v ∈ l, v = 0) → findStopAux l x 0 c = 0 := by
  intro l
  induction l with
  | nil => intro x c _; rfl
  | cons v rest ih =>
    intro x c hz
    have hv : v = 0 := hz v (List.mem_cons_self v rest)
    simp only [findStopAux, hv, ne_eq, not_true_eq_false, if_neg, ite_false]
    exact ih (x + 1) c fun w hw => hz w (List.mem_cons_of_mem v hw)

/-- On an all-zero binary row, fewer than 13 transitions occur and
`stopRunIn` keeps its initial value 0. -/
theorem findStopAux_all_zero_start : ∀ (l : List Nat) (x : Nat),
    (∀ v ∈ l, v = 0) → findStopAux l x 1 0 = 0 := by
  intro l x hz
  cases l with
  | nil => rfl
  | cons v rest =>
    have hv : v = 0 := hz v (List.mem_cons_self v rest)
    subst hv
    simp only [findStopAux, ne_eq, if_pos, reduceIte]
    exact findStopAux_all_zero rest (x + 1) 1 fun w hw => hz w (List.mem_cons_of_mem 0 hw)

/-- **C6.** If the binary row contains no `1` at all, or the index of
its first `1` exceeds `0.05·width`, `decodeFrame` rejects the frame
with `(0, 0)` (in the first case no run of 13 transitions exists, in
the second the start guard fires). -/
theorem decodeFrame_runin_start_reject (row : List Nat) (dbg : Bool) :
    ((normalizeRow row).findIdx? (fun v => v == 1) = none → decodeFrame row dbg = some [0, 0]) ∧
    (∀ j, (normalizeRow row).findIdx? (fun v => v == 1) = some j →
      (j : ℚ) > (row.length : ℚ) * (5 / 100) → decodeFrame row dbg = some [0, 0]) := by
  constructor
  · intro hnone
    by_cases hm : maxlumaOf row < 32
    · exact decodeFrame_blank row dbg hm
    · have hz : ∀ v ∈ normalizeRow row, v = 0 := by
        intro v hv
        have h1 := List.findIdx?_eq_none_iff.mp hnone v hv
        have h2 : v ≠ 1 := by simpa using h1
        have h3 : v ≤ 1 := normAux_le_one (maxlumaOf row) 0 row (by omega) v hv
        omega
      have hstart : findStart (normalizeRow row) = 0 :=
        findStartAux_eq_none _ 0 hnone
      have hstop : findStop (normalizeRow row) 0 = 0 := by
        rw [findStop, List.drop_zero]
        exact findStopAux_all_zero_start _ 0 hz
      rw [decodeFrame_eq row dbg hm, hstart]
      simp [hstop]
  · intro j hsome hq
    by_cases hm : maxlumaOf row < 32
    · exact decodeFrame_blank row dbg hm
    · have hstart : findStart (normalizeRow row) = j :=
        findStartAux_eq_some _ 0 j hsome
      have hguard : 100 * findStart (normalizeRow row) > row.length * 5 := by
        rw [hstart]
        exact (startGuard_iff j row.length).mpr hq
      rw [decodeFrame_eq row dbg hm, if_pos hguard]

theorem decodeFrame_runin_start_reject_witness :
    ((normalizeRow (List.replicate 20 0 ++ [255])).findIdx? (fun v => v == 1) = some 20 ∧
      ((20 : Nat) : ℚ) > (((List.replicate 20 0 ++ [255] : List Nat).length : Nat) : ℚ) * (5 / 100)) ∧
    decodeFrame (List.replicate 20 0 ++ [255]) false = some [0, 0] := by
  have h1 : (normalizeRow (List.replicate 20 0 ++ [255])).findIdx? (fun v => v == 1) = some 20 := by
    decide
  have h2 : ((20 : Nat) : ℚ) > (((List.replicate 20 0 ++ [255] : List Nat).length : Nat) : ℚ) * (5 / 100) := by
    have hl : (List.replicate 20 0 ++ [255] : List Nat).length = 21 := by decide
    rw [hl]
    rw [← startGuard_iff 20 21]
    decide
  exact ⟨⟨h1, h2⟩,
    (decodeFrame_runin_start_reject (List.replicate 20 0 ++ [255]) false).2 20 h1 h2⟩

/-- **C7.** Once `decodeFrame` is past the earlier guards (bright
enough, start in time, 13 transitions found), the run descriptor is
materialized and the later stages run exactly when
`0.20·width ≤ stopRunIn ≤ 0.30·width`: outside the band the frame is
rejected with `(0, 0)`, inside it decoding proceeds to `decodeData`. -/
theorem decodeFrame_runin_band (row : List Nat) (dbg : Bool)
    (hm : ¬ maxlumaOf row < 32)
    (hs : ¬ ((findStart (normalizeRow row) : ℚ) > (row.length : ℚ) * (5 / 100)))
    (ht : findStop (normalizeRow row) (findStart (normalizeRow row)) ≠ 0) :
    (((findStop (normalizeRow row) (findStart (normalizeRow row)) : ℚ) < 2 / 10 * (row.length : ℚ) ∨
      (findStop (normalizeRow row) (findStart (normalizeRow row)) : ℚ) > 3 / 10 * (row.length : ℚ)) →
      decodeFrame row dbg = some [0, 0]) ∧
    ((2 / 10 * (row.length : ℚ) ≤ (findStop (normalizeRow row) (findStart (normalizeRow row)) : ℚ) ∧
      (findStop (normalizeRow row) (findStart (normalizeRow row)) : ℚ) ≤ 3 / 10 * (row.length : ℚ)) →
      decodeFrame row dbg = decodeData (normalizeRow row) (findStart (normalizeRow row))
        (findStop (normalizeRow row) (findStart (normalizeRow row))) row.length dbg) := by
  have hs2 : ¬ (100 * findStart (normalizeRow row) > row.length * 5) := fun h =>
    hs ((startGuard_iff _ _).mp h)
  constructor
  · intro hband
    have hband2 : 10 * findStop (normalizeRow row) (findStart (normalizeRow row)) < 2 * row.length ∨
        10 * findStop (normalizeRow row) (findStart (normalizeRow row)) > 3 * row.length :=
      hband.imp (bandLow_iff _ _).mpr (bandHigh_iff _ _).mpr
    rw [decodeFrame_eq row dbg hm, if_neg hs2, if_neg ht, if_pos hband2]
  · intro hband
    have hlow : ¬ (10 * findStop (normalizeRow row) (findStart (normalizeRow row)) < 2 * row.length) := by
      rw [bandLow_iff]
      exact not_lt.mpr hband.1
    have hhigh : ¬ (10 * findStop (normalizeRow row) (findStart (normalizeRow row)) > 3 * row.length) := by
      rw [bandHigh_iff]
      exact not_lt.mpr hband.2
    rw [decodeFrame_eq row dbg hm, if_neg hs2, if_neg ht, if_neg (not_or.mpr ⟨hlow, hhigh⟩)]

theorem decodeFrame_runin_band_witness :
    (¬ maxlumaOf c2Row < 32) ∧
    decodeFrame c2Row false = decodeData (normalizeRow c2Row) (findStart (normalizeRow c2Row))
      (findStop (normalizeRow c2Row) (findStart (normalizeRow c2Row))) c2Row.length false := by
  have hm : ¬ maxlumaOf c2Row < 32 := by
    set_option maxRecDepth 100000 in decide
  have hs : ¬ ((findStart (normalizeRow c2Row) : ℚ) > (c2Row.length : ℚ) * (5 / 100)) := by
    intro hq
    exact absurd ((startGuard_iff _ _).mpr hq)
      (by set_option maxRecDepth 100000 in decide)
  have ht : findStop (normalizeRow c2Row) (findStart (normalizeRow c2Row)) ≠ 0 := by
    set_option maxRecDepth 100000 in decide
  have hle : 2 / 10 * (c2Row.length : ℚ) ≤
      (findStop (normalizeRow c2Row) (findStart (normalizeRow c2Row)) : ℚ) :=
    not_lt.mp ((not_congr (bandLow_iff _ _)).mp
      (by set_option maxRecDepth 100000 in decide))
  have hge : (findStop (normalizeRow c2Row) (findStart (normalizeRow c2Row)) : ℚ) ≤
      3 / 10 * (c2Row.length : ℚ) :=
    not_lt.mp ((not_congr (bandHigh_iff _ _)).mp
      (by set_option maxRecDepth 100000 in decide))
  exact ⟨hm, (decodeFrame_runin_band c2Row false hm hs ht).2 ⟨hle, hge⟩⟩

/-- The data-bit loop can only add the powers `2 ^ b` for the listed bit
numbers: the parity bit is never folded into the byte value. -/
theorem bitLoop_byte_le (values : List Nat) (s w base : Nat) :
    ∀ (bs : List Nat) (byte parity b p : Nat),
    bitLoop values s w base bs byte parity = some (b, p) →
    b ≤ byte + (bs.map fun i => 2 ^ i).sum := by
  intro bs
  induction bs with
  | nil =>
    intro byte parity b p h
    simp only [bitLoop] at h
    simp at h
    omega
  | cons i rest ih =>
    intro byte parity b p h
    simp only [bitLoop] at h
    split at h
    · exact absurd h (by simp)
    · split at h
      · have := ih (byte + 2 ^ i) (parity + 1) b p h
        simp only [List.map_cons, List.sum_cons]
        omega
      · have hrec := ih byte parity b p h
        simp only [List.map_cons, List.sum_cons]
        exact hrec.trans (Nat.add_le_add_left (Nat.le_add_left _ _) byte)

/-- An assembled byte group value is at most `2^7 - 1 = 127`. -/
theorem assembleByte_le (values : List Nat) (s w base b : Nat)
    (h : assembleByte values s w base = some b) : b ≤ 127 := by
  rw [assembleByte] at h
  rcases heq : bitLoop values s w base [0, 1, 2, 3, 4, 5, 6] 0 0 with _ | ⟨byte, parity⟩
  · rw [heq] at h; exact absurd h (by simp)
  · rw [heq] at h
    have h2 : (getBit values s w ((base : Int) + 7) + (parity : Int)) % 2 = 1 ∧ byte = b := by
      simpa using h
    obtain ⟨-, hb⟩ := h2
    have hle := bitLoop_byte_le values s w base [0, 1, 2, 3, 4, 5, 6] 0 0 byte parity heq
    have hsum : (([0, 1, 2, 3, 4, 5, 6] : List Nat).map fun i => 2 ^ i).sum = 127 := by decide
    omega

/-- A successful `try` block yields exactly two bytes, each ≤ 127. -/
theorem decodeTry_shape (values : List Nat) (s w : Nat) (l : List Nat)
    (h : decodeTry values s w = some l) :
    ∃ a b, l = [a, b] ∧ a ≤ 127 ∧ b ≤ 127 := by
  rw [decodeTry] at h
  split at h
  · exact absurd h (by simp)
  · rcases h0 : assembleByte values s w 0 with _ | b0
    · rw [h0] at h; exact absurd h (by simp)
    · rw [h0] at h
      rcases h8 : assembleByte values s w 8 with _ | b1
      · rw [h8] at h; exact absurd h (by simp)
      · rw [h8] at h
        refine ⟨b0, b1, ?_, assembleByte_le values s w 0 b0 h0,
          assembleByte_le values s w 8 b1 h8⟩
        simpa using h.symm

/-- The body of `decodeData` with its let-bindings expanded. -/
theorem decodeData_eq (values : List Nat) (s t wd : Nat) (dbg : Bool) :
    decodeData values s t wd dbg =
      match decodeTry values (scanStart values wd t + bitWidthOf (t - s)) (bitWidthOf (t - s)) with
      | some data => some data
      | none => if dbg then none else some [0, 0] := rfl

/-- `decodeData` yields the sentinel or two validated bytes. -/
theorem decodeData_shape (values : List Nat) (s t wd : Nat) (dbg : Bool) (l : List Nat)
    (h : decodeData values s t wd dbg = some l) :
    l = [0, 0] ∨ ∃ a b, l = [a, b] ∧ a ≤ 127 ∧ b ≤ 127 := by
  rw [decodeData_eq] at h
  rcases htry : decodeTry values (scanStart values wd t + bitWidthOf (t - s)) (bitWidthOf (t - s))
      with _ | data
  · rw [htry] at h
    cases dbg with
    | true => simp at h
    | false => left; simpa using h.symm
  · rw [htry] at h
    have hdl : data = l := by simpa using h
    rw [← hdl]
    exact Or.inr (decodeTry_shape _ _ _ _ htry)

/-- `decodeData` with `DEBUG` off always yields a two-byte result. -/
theorem decodeData_false_total (values : List Nat) (s t wd : Nat) :
    ∃ l, decodeData values s t wd false = some l ∧ l.length = 2 := by
  rw [decodeData_eq]
  rcases htry : decodeTry values (scanStart values wd t + bitWidthOf (t - s)) (bitWidthOf (t - s))
      with _ | data
  · exact ⟨[0, 0], rfl, rfl⟩
  · obtain ⟨a, b, rfl, -, -⟩ := decodeTry_shape _ _ _ _ htry
    exact ⟨[a, b], rfl, rfl⟩

/-- Any `some` result of `decodeFrame` is the sentinel or two bytes
≤ 127. -/
theorem decodeFrame_shape (row : List Nat) (dbg : Bool) (l : List Nat)
    (h : decodeFrame row dbg = some l) :
    l = [0, 0] ∨ ∃ a b, l = [a, b] ∧ a ≤ 127 ∧ b ≤ 127 := by
  by_cases hm : maxlumaOf row < 32
  · rw [decodeFrame_blank row dbg hm] at h
    left; simpa using h.symm
  · rw [decodeFrame_eq row dbg hm] at h
    split at h
    · left; simpa using h.symm
    · split at h
      · left; simpa using h.symm
      · split at h
        · left; simpa using h.symm
        · exact decodeData_shape _ _ _ _ _ _ h

/-- **C10.** Whenever `decodeFrame` returns a result, it is exactly two
byte values, each in `[0, 127]`: only the seven data bits `base+0 ..
base+6` contribute `2 ^ b` to a byte and the parity bit is never added,
so every emitted byte is ASCII-decodable. -/
theorem decodeFrame_bytes_ascii (row : List Nat) (dbg : Bool) (res : List Nat)
    (h : decodeFrame row dbg = some res) :
    res.length = 2 ∧ ∀ x ∈ res, x ≤ 127 := by
  rcases decodeFrame_shape row dbg res h with h0 | ⟨a, b, rfl, ha, hb⟩
  · subst h0
    exact ⟨rfl, by intro x hx; simp at hx; omega⟩
  · refine ⟨rfl, ?_⟩
    intro x hx
    simp at hx
    rcases hx with rfl | rfl <;> omega

theorem decodeFrame_bytes_ascii_witness :
    decodeFrame [] false = some [0, 0] ∧
      (([0, 0] : List Nat).length = 2 ∧ ∀ x ∈ ([0, 0] : List Nat), x ≤ 127) :=
  ⟨by decide, decodeFrame_bytes_ascii [] false [0, 0] (by decide)⟩

/-- With `DEBUG` off every frame decodes to `some` pair of bytes: every
exceptional path is converted to the sentinel. -/
theorem decodeFrame_false_total (row : List Nat) :
    ∃ l, decodeFrame row false = some l ∧ l.length = 2 := by
  by_cases hm : maxlumaOf row < 32
  · exact ⟨[0, 0], decodeFrame_blank row false hm, rfl⟩
  · rw [decodeFrame_eq row false hm]
    split
    · exact ⟨[0, 0], rfl, rfl⟩
    · split
      · exact ⟨[0, 0], rfl, rfl⟩
      · split
        · exact ⟨[0, 0], rfl, rfl⟩
        · exact decodeData_false_total _ _ _ _

/-- **C3.** For every ordered list of frames and every line index, the
batch driver returns the concatenation, in input-list order, of the
per-frame `decodeFrame` results (the ordered sequential map that
`pool.starmap` implements), and its length is exactly
`2 × number_of_frames`. -/
theorem getByteStream_ordered_concat_length (images : List (Nat → List Nat)) (line : Nat) :
    getByteStream images line false
      = some ((images.map fun img => (decodeFrame (img line) false).getD []).flatten) ∧
    ((images.map fun img => (decodeFrame (img line) false).getD []).flatten).length
      = 2 * images.length := by
  induction images with
  | nil => exact ⟨rfl, rfl⟩
  | cons img rest ih =>
    obtain ⟨l0, hl0, hlen0⟩ := decodeFrame_false_total (img line)
    have hres : flattenResults (rest.map fun i => decodeFrame (i line) false)
        = some ((rest.map fun i => (decodeFrame (i line) false).getD []).flatten) := by
      have h1 := ih.1
      simpa only [getByteStream] using h1
    constructor
    · simp only [getByteStream, List.map_cons]
      rw [hl0]
      simp only [flattenResults]
      rw [hres]
      simp [hl0]
    · have h2 := ih.2
      simp only [List.map_cons, List.flatten_cons, List.length_append, List.length_cons,
        hl0, Option.getD_some, hlen0, h2]
      ring

theorem bitOf_le_one (n i : Nat) : bitOf n i ≤ 1 :=
  Nat.le_of_lt_succ (Nat.mod_lt _ (by norm_num))

theorem parityBitOf_le_one (n : Nat) : parityBitOf n ≤ 1 :=
  Nat.le_of_lt_succ (Nat.mod_lt _ (by norm_num))

theorem encodeBits_mem_le (b1 b2 : Nat) : ∀ x ∈ encodeBits b1 b2, x ≤ 1 := by
  intro x hx
  simp only [encodeBits, List.mem_cons, List.not_mem_nil, or_false] at hx
  rcases hx with rfl | rfl | rfl | rfl | rfl | rfl | rfl | rfl | rfl | rfl | rfl | rfl | rfl |
    rfl | rfl | rfl <;>
    first
      | exact bitOf_le_one _ _
      | exact parityBitOf_le_one _

theorem encodeFrame_mem (b1 b2 : Nat) : ∀ x ∈ encodeFrame b1 b2, x = 0 ∨ x = 255 := by
  intro x hx
  simp only [encodeFrame, List.mem_append, List.mem_flatMap, List.mem_replicate] at hx
  rcases hx with (hx | ⟨b, hb, hx⟩) | hx
  · have hall : ∀ y ∈ headerSamples, y = 0 ∨ y = 255 := by decide
    exact hall x hx
  · have hble : b ≤ 1 := encodeBits_mem_le b1 b2 b hb
    simp only [List.mem_cons, List.not_mem_nil, or_false] at hx
    interval_cases b <;> rcases hx with rfl | rfl <;> simp
  · exact Or.inl hx.2

theorem foldl_max_le : ∀ (l : List Nat) (a : Nat), (∀ x ∈ l, x ≤ a) →
    l.foldl (fun m c => if c > m then c else m) a = a := by
  intro l
  induction l with
  | nil => intro a _; rfl
  | cons c rest ih =>
    intro a h
    have hc : c ≤ a := h c (List.mem_cons_self c rest)
    have : (if c > a then c else a) = a := by
      rw [if_neg (by omega)]
    simp only [List.foldl_cons, this]
    exact ih a fun x hx => h x (List.mem_cons_of_mem c hx)

theorem maxlumaOf_encodeFrame (b1 b2 : Nat) : maxlumaOf (encodeFrame b1 b2) = 255 := by
  have hcons : encodeFrame b1 b2 = 255 :: (encodeFrame b1 b2).tail := rfl
  have hle : ∀ x ∈ (encodeFrame b1 b2).tail, x ≤ 255 := by
    intro x hx
    have hmem : x ∈ encodeFrame b1 b2 := by
      rw [hcons]
      exact List.mem_cons_of_mem _ hx
    rcases encodeFrame_mem b1 b2 x hmem with rfl | rfl <;> omega
  rw [maxlumaOf, hcons, List.foldl_cons]
  have h0 : (if 255 > 0 then 255 else 0) = 255 := rfl
  rw [h0]
  exact foldl_max_le _ 255 hle

theorem normAux_binOf : ∀ (l : List Nat) (last : Nat), (∀ x ∈ l, x = 0 ∨ x = 255) →
    normAux 255 last l = l.map binOf := by
  intro l
  induction l with
  | nil => intro last _; rfl
  | cons s rest ih =>
    intro last h
    have hs : s = 0 ∨ s = 255 := h s (List.mem_cons_self s rest)
    have htail : ∀ x ∈ rest, x = 0 ∨ x = 255 := fun x hx => h x (List.mem_cons_of_mem s hx)
    rcases hs with rfl | rfl
    · show normAux 255 last (0 :: rest) = binOf 0 :: rest.map binOf
      simp only [normAux, binOf]
      norm_num
      exact ih 0 htail
    · show normAux 255 last (255 :: rest) = binOf 255 :: rest.map binOf
      simp only [normAux, binOf]
      norm_num
      exact ih 1 htail

theorem flatMap_pair_binOf : ∀ (l : List Nat), (∀ b ∈ l, b ≤ 1) →
    (l.flatMap fun b => [binOf (255 * b), binOf (255 * b)]) = l.flatMap fun b => [b, b] := by
  intro l
  induction l with
  | nil => intro _; rfl
  | cons b rest ih =>
    intro h
    have hb : b ≤ 1 := h b (List.mem_cons_self b rest)
    have htail := fun x hx => h x (List.mem_cons_of_mem b hx)
    simp only [List.flatMap_cons, ih htail]
    congr 2 <;> (interval_cases b <;> rfl)

theorem vals_eq (b1 b2 : Nat) : normalizeRow (encodeFrame b1 b2) = encBinRow b1 b2 := by
  rw [normalizeRow, maxlumaOf_encodeFrame, normAux_binOf _ _ (encodeFrame_mem b1 b2)]
  rw [encodeFrame, encBinRow]
  rw [List.map_append, List.map_append]
  have h1 : List.map binOf headerSamples = binHeader := by decide
  have h2 : List.map binOf ((encodeBits b1 b2).flatMap fun b => [255 * b, 255 * b])
      = (encodeBits b1 b2).flatMap fun b => [b, b] := by
    rw [List.map_flatMap]
    simp only [List.map_cons, List.map_nil]
    exact flatMap_pair_binOf _ (encodeBits_mem_le b1 b2)
  have h3 : List.map binOf (List.replicate 9 0) = List.replicate 9 0 := by decide
  rw [h1, h2, h3]

theorem bitLoop_reads (values : List Nat) (s w base : Nat) (g : Nat → Nat) :
    ∀ (bs : List Nat) (byte parity : Nat),
    (∀ b ∈ bs, getBit values s w ((base : Int) + (b : Int)) = ((g b : Nat) : Int)) →
    (∀ b ∈ bs, g b ≤ 1) →
    bitLoop values s w base bs byte parity
      = some (byte + ((bs.filter fun b => g b == 1).map fun b => 2 ^ b).sum,
              parity + (bs.filter fun b => g b == 1).length) := by
  intro bs
  induction bs with
  | nil => intro byte parity _ _; simp [bitLoop]
  | cons b rest ih =>
    intro byte parity hg hle
    have hgb := hg b (List.mem_cons_self b rest)
    have hgb1 := hle b (List.mem_cons_self b rest)
    have hgr : ∀ x ∈ rest, getBit values s w ((base : Int) + (x : Int)) = ((g x : Nat) : Int) :=
      fun x hx => hg x (List.mem_cons_of_mem b hx)
    have hlr : ∀ x ∈ rest, g x ≤ 1 := fun x hx => hle x (List.mem_cons_of_mem b hx)
    have hcase : g b = 0 ∨ g b = 1 := by omega
    rcases hcase with h0 | h1
    · rw [h0] at hgb
      simp only [bitLoop, hgb]
      rw [if_neg (by norm_num), if_neg (by norm_num)]
      rw [ih byte parity hgr hlr]
      have hf : (List.filter (fun x => g x == 1) (b :: rest)) = List.filter (fun x => g x == 1) rest := by
        rw [List.filter_cons]
        simp [h0]
      rw [hf]
    · rw [h1] at hgb
      simp only [bitLoop, hgb]
      rw [if_neg (by norm_num), if_pos (by norm_num)]
      rw [ih (byte + 2 ^ b) (parity + 1) hgr hlr]
      have hf : (List.filter (fun x => g x == 1) (b :: rest)) = b :: List.filter (fun x => g x == 1) rest := by
        rw [List.filter_cons]
        simp [h1]
      rw [hf]
      simp only [List.map_cons, List.sum_cons, List.length_cons]
      congr 2 <;> omega

theorem bitsRecompose : ∀ n : Nat, n < 128 →
    ((([0, 1, 2, 3, 4, 5, 6] : List Nat).filter fun b => bitOf n b == 1).map fun b => 2 ^ b).sum
        = n ∧
      (parityBitOf n +
        (([0, 1, 2, 3, 4, 5, 6] : List Nat).filter fun b => bitOf n b == 1).length) % 2 = 1 := by
  decide

theorem assembleByte_eq (values : List Nat) (s w base : Nat) :
    assembleByte values s w base
      = match bitLoop values s w base [0, 1, 2, 3, 4, 5, 6] 0 0 with
        | none => none
        | some (byte, parity) =>
          if (getBit values s w ((base : Int) + 7) + (parity : Int)) % 2 ≠ 1 then none
          else some byte := rfl

theorem assembleByte_of_bitLoop (values : List Nat) (s w base byte parity : Nat)
    (hbl : bitLoop values s w base [0, 1, 2, 3, 4, 5, 6] 0 0 = some (byte, parity))
    (hpar : (getBit values s w ((base : Int) + 7) + (parity : Int)) % 2 = 1) :
    assembleByte values s w base = some byte := by
  rw [assembleByte_eq, hbl]
  show (if (getBit values s w ((base : Int) + 7) + (parity : Int)) % 2 ≠ 1 then none
      else some byte) = some byte
  rw [if_neg (not_not_intro hpar)]

theorem assembleByte_lo (b1 b2 : Nat) (h1 : b1 < 128) :
    assembleByte (encBinRow b1 b2) 19 2 0 = some b1 := by
  have hg : ∀ b ∈ ([0, 1, 2, 3, 4, 5, 6] : List Nat),
      getBit (encBinRow b1 b2) 19 2 (((0 : Nat) : Int) + (b : Int))
        = ((bitOf b1 b : Nat) : Int) := by
    intro b hb
    fin_cases hb <;> rfl
  have hle : ∀ b ∈ ([0, 1, 2, 3, 4, 5, 6] : List Nat), bitOf b1 b ≤ 1 :=
    fun b _ => bitOf_le_one b1 b
  have hloop := bitLoop_reads (encBinRow b1 b2) 19 2 0 (fun b => bitOf b1 b)
    [0, 1, 2, 3, 4, 5, 6] 0 0 hg hle
  obtain ⟨hsum, hpar⟩ := bitsRecompose b1 h1
  have hp7 : getBit (encBinRow b1 b2) 19 2 (((0 : Nat) : Int) + 7)
      = ((parityBitOf b1 : Nat) : Int) := rfl
  have hparI : (getBit (encBinRow b1 b2) 19 2 (((0 : Nat) : Int) + 7) +
      ((0 + (([0, 1, 2, 3, 4, 5, 6] : List Nat).filter fun b => bitOf b1 b == 1).length : Nat) :
        Int)) % 2 = 1 := by
    rw [hp7]
    push_cast
    omega
  have hfinal := assembleByte_of_bitLoop (encBinRow b1 b2) 19 2 0 _ _ hloop hparI
  rw [hfinal, Nat.zero_add, hsum]

theorem assembleByte_hi (b1 b2 : Nat) (h2 : b2 < 128) :
    assembleByte (encBinRow b1 b2) 19 2 8 = some b2 := by
  have hg : ∀ b ∈ ([0, 1, 2, 3, 4, 5, 6] : List Nat),
      getBit (encBinRow b1 b2) 19 2 (((8 : Nat) : Int) + (b : Int))
        = ((bitOf b2 b : Nat) : Int) := by
    intro b hb
    fin_cases hb <;> rfl
  have hle : ∀ b ∈ ([0, 1, 2, 3, 4, 5, 6] : List Nat), bitOf b2 b ≤ 1 :=
    fun b _ => bitOf_le_one b2 b
  have hloop := bitLoop_reads (encBinRow b1 b2) 19 2 8 (fun b => bitOf b2 b)
    [0, 1, 2, 3, 4, 5, 6] 0 0 hg hle
  obtain ⟨hsum, hpar⟩ := bitsRecompose b2 h2
  have hp7 : getBit (encBinRow b1 b2) 19 2 (((8 : Nat) : Int) + 7)
      = ((parityBitOf b2 : Nat) : Int) := rfl
  have hparI : (getBit (encBinRow b1 b2) 19 2 (((8 : Nat) : Int) + 7) +
      ((0 + (([0, 1, 2, 3, 4, 5, 6] : List Nat).filter fun b => bitOf b2 b == 1).length : Nat) :
        Int)) % 2 = 1 := by
    rw [hp7]
    push_cast
    omega
  have hfinal := assembleByte_of_bitLoop (encBinRow b1 b2) 19 2 8 _ _ hloop hparI
  rw [hfinal, Nat.zero_add, hsum]

theorem decodeTry_encBinRow (b1 b2 : Nat) (h1 : b1 < 128) (h2 : b2 < 128) :
    decodeTry (encBinRow b1 b2) 19 2 = some [b1, b2] := by
  have hsan : (getBit (encBinRow b1 b2) 19 2 (-3), getBit (encBinRow b1 b2) 19 2 (-2),
      getBit (encBinRow b1 b2) 19 2 (-1)) = ((0 : Int), (0 : Int), (1 : Int)) := rfl
  rw [decodeTry, if_neg (not_not_intro hsan), assembleByte_lo b1 b2 h1]
  show (match assembleByte (encBinRow b1 b2) 19 2 8 with
      | none => none
      | some bv => some [b1, bv]) = some [b1, b2]
  rw [assembleByte_hi b1 b2 h2]

theorem decode_encode_stage1 (b1 b2 : Nat) :
    decodeFrame (encodeFrame b1 b2) false = decodeData (encBinRow b1 b2) 0 13 60 false := by
  have hm : ¬ maxlumaOf (encodeFrame b1 b2) < 32 := by
    rw [maxlumaOf_encodeFrame]
    norm_num
  rw [decodeFrame_eq _ _ hm, vals_eq]
  have hl : (encodeFrame b1 b2).length = 60 := rfl
  have hfs : findStart (encBinRow b1 b2) = 0 := rfl
  have hfp : findStop (encBinRow b1 b2) 0 = 13 := rfl
  rw [hl, hfs, hfp]
  norm_num

/-- **C5.**  Encode-then-decode round-trips exactly: for every pair of
7-bit byte values, the well-formed encoded sample row (valid run-in
ending at 13 of width 60, in the 20%-30% band; dead space; start bit;
two 7-bit byte groups with correct odd-parity bits) decodes to exactly
the two encoded bytes. -/
theorem decodeFrame_roundtrip (b1 b2 : Nat) (h1 : b1 < 128) (h2 : b2 < 128) :
    decodeFrame (encodeFrame b1 b2) false = some [b1, b2] := by
  rw [decode_encode_stage1, decodeData_eq]
  have htry : decodeTry (encBinRow b1 b2)
      (scanStart (encBinRow b1 b2) 60 13 + bitWidthOf (13 - 0)) (bitWidthOf (13 - 0))
      = decodeTry (encBinRow b1 b2) 19 2 := rfl
  rw [htry, decodeTry_encBinRow b1 b2 h1 h2]


theorem decodeFrame_roundtrip_witness :
    (65 < 128 ∧ 0 < 128) ∧ decodeFrame (encodeFrame 65 0) false = some [65, 0] :=
  ⟨⟨by decide, by decide⟩, decodeFrame_roundtrip 65 0 (by decide) (by decide)⟩

end DecodeCC
